import Mathlib

/-!
Verification development for the layout-reconstruction core of the
`pdf_to_docx_converter` repository.

The definitions below are a shallow embedding of `src/layout_engine.py`
(data model, coordinate clusterer, margin calculator, column detector,
header/footer separator, element merger, overlap test, global style
analyzer, orchestrator) and of the raw-text-block header/footer detector
of `src/pdf_analyzer.py`.  Python floats are modelled by `ℚ`; Python
lists by `List`; the dataclasses by structures; `dict` counters by
insertion-ordered association lists.
-/

namespace PdfToDocx

/-- An axis-aligned bounding box `(x0, y0, x1, y1)` in page points. -/
abbrev BBox := ℚ × ℚ × ℚ × ℚ

/-- Left edge `x0` of a bbox. -/
def bx0 (b : BBox) : ℚ := b.1

/-- Top edge `y0` of a bbox. -/
def by0 (b : BBox) : ℚ := b.2.1

/-- Right edge `x1` of a bbox. -/
def bx1 (b : BBox) : ℚ := b.2.2.1

/-- Bottom edge `y1` of a bbox. -/
def by1 (b : BBox) : ℚ := b.2.2.2

/-- `TextBlock` dataclass of `pdf_analyzer.py`. -/
structure TextBlock where
  text : String
  bbox : BBox
  font_name : String
  font_size : ℚ
  font_flags : ℤ
  color : ℤ
  page_num : ℤ
deriving DecidableEq

/-- `ImageBlock` dataclass of `pdf_analyzer.py` (`image_data` bytes are a list of byte values). -/
structure ImageBlock where
  image_data : List ℕ
  bbox : BBox
  width : ℤ
  height : ℤ
  page_num : ℤ
  image_format : String
deriving DecidableEq

/-- `OCRResult` dataclass of `ocr_processor.py`. -/
structure OCRResult where
  text : String
  confidence : ℚ
  bbox : BBox
  page_num : ℤ
  original_image_bbox : BBox
deriving DecidableEq

/-- The `content` field of a `LayoutElement`: a reference to the
originating text block, image block, or OCR result. -/
inductive Content where
  | tb (t : TextBlock)
  | img (i : ImageBlock)
  | ocr (o : OCRResult)
deriving DecidableEq

/-- `LayoutElement` dataclass of `layout_engine.py`. -/
structure LayoutElement where
  element_type : String
  content : Content
  bbox : BBox
  page_num : ℤ
  z_order : ℤ
deriving DecidableEq

/-- The margin dictionary `{top, bottom, left, right}` returned by
`LayoutEngine._calculate_margins`. -/
structure Margins where
  top : ℚ
  bottom : ℚ
  left : ℚ
  right : ℚ
deriving DecidableEq

/-- A column dictionary `{x_start, x_end, width}` returned by
`LayoutEngine._detect_columns`. -/
structure Column where
  x_start : ℚ
  x_end : ℚ
  width : ℚ
deriving DecidableEq

/-- Global styles dictionary built by `LayoutEngine._extract_global_styles`
for a non-empty block list; the empty dictionary is modelled by `none`. -/
structure GlobalStyles where
  default_font : String
  default_font_size : ℚ
  font_usage : List (String × ℕ)
  size_usage : List (ℚ × ℕ)
deriving DecidableEq

/-- `PageLayout` dataclass of `layout_engine.py`. -/
structure PageLayout where
  page_num : ℤ
  page_size : ℚ × ℚ
  elements : List LayoutElement
  columns : List Column
  margins : Margins
  headers : List LayoutElement
  footers : List LayoutElement
deriving DecidableEq

/-- `DocumentLayout` dataclass of `layout_engine.py`. -/
structure DocumentLayout where
  pages : List PageLayout
  global_styles : Option GlobalStyles
  font_mapping : List (String × String)
deriving DecidableEq

/-- The fields of the `PDFDocument` dataclass consumed by the layout
engine (`metadata`, `text_blocks` and `images` are passed separately to
`reconstruct_layout` and are not read from the document object there). -/
structure PDFDocument where
  page_count : ℕ
  page_sizes : List (ℚ × ℚ)
deriving DecidableEq

/-! ### Generic helpers for Python `min(...)`/`max(...)` over sequences -/

theorem foldl_min_mem {α : Type} [LinearOrder α] :
    ∀ (l : List α) (a : α), List.foldl min a l ∈ a :: l := by
  intro l
  induction l with
  | nil => intro a; simp
  | cons x xs ih =>
    intro a
    have h := ih (min a x)
    simp only [List.foldl_cons]
    rcases List.mem_cons.mp h with h1 | h1
    · rw [h1]
      rcases le_total a x with hax | hxa
      · simp [min_eq_left hax]
      · simp [min_eq_right hxa]
    · simp only [List.mem_cons]
      right; right; exact h1

theorem foldl_min_le {α : Type} [LinearOrder α] :
    ∀ (l : List α) (a : α), List.foldl min a l ≤ a ∧ ∀ x ∈ l, List.foldl min a l ≤ x := by
  intro l
  induction l with
  | nil => intro a; simp
  | cons x xs ih =>
    intro a
    obtain ⟨h1, h2⟩ := ih (min a x)
    refine ⟨le_trans h1 (min_le_left _ _), ?_⟩
    intro y hy
    rcases List.mem_cons.mp hy with rfl | hy
    · exact le_trans h1 (min_le_right _ _)
    · exact h2 y hy

theorem foldl_max_mem {α : Type} [LinearOrder α] :
    ∀ (l : List α) (a : α), List.foldl max a l ∈ a :: l := by
  intro l
  induction l with
  | nil => intro a; simp
  | cons x xs ih =>
    intro a
    have h := ih (max a x)
    simp only [List.foldl_cons]
    rcases List.mem_cons.mp h with h1 | h1
    · rw [h1]
      rcases le_total a x with hax | hxa
      · simp [max_eq_right hax]
      · simp [max_eq_left hxa]
    · simp only [List.mem_cons]
      right; right; exact h1

theorem foldl_max_le {α : Type} [LinearOrder α] :
    ∀ (l : List α) (a : α), a ≤ List.foldl max a l ∧ ∀ x ∈ l, x ≤ List.foldl max a l := by
  intro l
  induction l with
  | nil => intro a; simp
  | cons x xs ih =>
    intro a
    obtain ⟨h1, h2⟩ := ih (max a x)
    refine ⟨le_trans (le_max_left _ _) h1, ?_⟩
    intro y hy
    rcases List.mem_cons.mp hy with rfl | hy
    · exact le_trans (le_max_right _ _) h1
    · exact h2 y hy

/-! ### Coordinate clusterer (`LayoutEngine._cluster_coordinates`) -/

/-- Arithmetic mean of a list of rationals (`sum(cluster) / len(cluster)`). -/
def mean (l : List ℚ) : ℚ := l.sum / (l.length : ℚ)

/-- The clustering loop of `_cluster_coordinates`: `cur` is the current
cluster (in input order), `lastv` its last accepted value, and the
remaining sorted coordinates are consumed one by one.  A new cluster is
started whenever the next value exceeds `tol` beyond `lastv`. -/
def clusterGo (tol : ℚ) (cur : List ℚ) (lastv : ℚ) : List ℚ → List (List ℚ)
  | [] => [cur]
  | c :: rest =>
    if c - lastv ≤ tol then clusterGo tol (cur ++ [c]) c rest
    else cur :: clusterGo tol [c] c rest

/-- `LayoutEngine._cluster_coordinates`: `sorted(set(coordinates))`
(modelled as insertion sort of the deduplicated list), then greedy
clustering, then the arithmetic mean of each cluster. -/
def cluster_coordinates (coordinates : List ℚ) (tolerance : ℚ) : List ℚ :=
  match List.insertionSort (· ≤ ·) coordinates.dedup with
  | [] => []
  | c :: cs => (clusterGo tolerance [c] c cs).map mean

/-! ### Margin calculator (`LayoutEngine._calculate_margins`) -/

/-- `LayoutEngine._calculate_margins`. -/
def calculate_margins (elements : List LayoutElement) (page_width page_height : ℚ) :
    Margins :=
  match elements with
  | [] => ⟨72, 72, 72, 72⟩
  | e :: es =>
    let min_x := (es.map (fun el => bx0 el.bbox)).foldl min (bx0 e.bbox)
    let max_x := (es.map (fun el => bx1 el.bbox)).foldl max (bx1 e.bbox)
    let min_y := (es.map (fun el => by0 el.bbox)).foldl min (by0 e.bbox)
    let max_y := (es.map (fun el => by1 el.bbox)).foldl max (by1 e.bbox)
    { top := max 0 min_y
      bottom := max 0 (page_height - max_y)
      left := max 0 min_x
      right := max 0 (page_width - max_x) }

/-! ### Column detector (`LayoutEngine._detect_columns`) -/

/-- `LayoutEngine._detect_columns`.  The source also computes
`left_clusters`/`right_clusters` via `_cluster_coordinates` but never
uses them, so they are omitted here. -/
def detect_columns (text_blocks : List TextBlock) (page_width : ℚ) : List Column :=
  match text_blocks with
  | [] => [⟨0, page_width, page_width⟩]
  | tb :: tbs =>
    let min_x := (tbs.map (fun t => bx0 t.bbox)).foldl min (bx0 tb.bbox)
    let max_x := (tbs.map (fun t => bx1 t.bbox)).foldl max (bx1 tb.bbox)
    [⟨min_x, max_x, max_x - min_x⟩]

/-! ### Header/footer separator (`LayoutEngine._separate_headers_footers`) -/

/-- Vertical center `(y0 + y1) / 2` of an element's bbox. -/
def yCenter (e : LayoutElement) : ℚ := (by0 e.bbox + by1 e.bbox) / 2

/-- The classification loop of `_separate_headers_footers`: returns
`(headers, footers, main_elements)`, each in input order. -/
def septhree (ht ft : ℚ) :
    List LayoutElement → List LayoutElement × List LayoutElement × List LayoutElement
  | [] => ([], [], [])
  | e :: rest =>
    let (hs, fs, ms) := septhree ht ft rest
    if yCenter e < ht then (e :: hs, fs, ms)
    else if yCenter e > ft then (hs, e :: fs, ms)
    else (hs, fs, e :: ms)

/-- `LayoutEngine._separate_headers_footers`: thresholds are 15% and 85%
of the page height; the function returns `(headers, footers)` and the
caller's element list is replaced by the main elements (modelled by
returning all three lists). -/
def separate_headers_footers (elements : List LayoutElement) (page_height : ℚ) :
    List LayoutElement × List LayoutElement × List LayoutElement :=
  septhree (page_height * (15 / 100)) (page_height * (85 / 100)) elements

/-! ### Overlap test (`LayoutEngine._elements_overlap`) -/

/-- `LayoutEngine._elements_overlap`. -/
def elements_overlap (elem1 elem2 : LayoutElement) (threshold : ℚ) : Bool :=
  let box1 := elem1.bbox
  let box2 := elem2.bbox
  let x_overlap := max 0 (min (bx1 box1) (bx1 box2) - max (bx0 box1) (bx0 box2))
  let y_overlap := max 0 (min (by1 box1) (by1 box2) - max (by0 box1) (by0 box2))
  if x_overlap = 0 ∨ y_overlap = 0 then false
  else
    let intersection_area := x_overlap * y_overlap
    let area1 := (bx1 box1 - bx0 box1) * (by1 box1 - by0 box1)
    let area2 := (bx1 box2 - bx0 box2) * (by1 box2 - by0 box2)
    let overlap_ratio := intersection_area / min area1 area2
    decide (overlap_ratio > threshold)

/-! ### Element merger (`LayoutEngine.merge_overlapping_elements`) -/

/-- Inner loop of `merge_overlapping_elements`: scans indices `js`
(those after `i`), skipping already-discarded indices, updating the
element to keep and adding overlapped indices to the skip set. -/
def mergeInner (elems : List LayoutElement) (e1 : LayoutElement) :
    List ℕ → List ℕ → LayoutElement → LayoutElement × List ℕ
  | [], skip, merged_elem => (merged_elem, skip)
  | j :: rest, skip, merged_elem =>
    if j ∈ skip then mergeInner elems e1 rest skip merged_elem
    else
      match elems.get? j with
      | none => mergeInner elems e1 rest skip merged_elem
      | some e2 =>
        if elements_overlap e1 e2 (7 / 10) then
          let m := if e1.element_type = "text" ∨ e2.element_type = "image" then e1 else e2
          mergeInner elems e1 rest (j :: skip) m
        else mergeInner elems e1 rest skip merged_elem

/-- Outer loop of `merge_overlapping_elements` over indices `is`. -/
def mergeOuter (elems : List LayoutElement) : List ℕ → List ℕ → List LayoutElement
  | [], _ => []
  | i :: rest, skip =>
    if i ∈ skip then mergeOuter elems rest skip
    else
      match elems.get? i with
      | none => mergeOuter elems rest skip
      | some e1 =>
        let p := mergeInner elems e1 (List.range' (i + 1) (elems.length - (i + 1))) skip e1
        p.1 :: mergeOuter elems rest p.2

/-- `LayoutEngine.merge_overlapping_elements`. -/
def merge_overlapping_elements (elements : List LayoutElement) : List LayoutElement :=
  if elements.length ≤ 1 then elements
  else mergeOuter elements (List.range elements.length) []

/-! ### Global style analyzer (`LayoutEngine._extract_global_styles`)

Python `defaultdict(int)` counters preserve key insertion order; they
are modelled by association lists where `addCount` increments an
existing key in place and appends a fresh key at the end. -/

/-- `counter[k] += v` on an insertion-ordered association list. -/
def addCount {K : Type} [DecidableEq K] : List (K × ℕ) → K → ℕ → List (K × ℕ)
  | [], k, v => [(k, v)]
  | (k', v') :: rest, k, v =>
    if k' = k then (k', v' + v) :: rest else (k', v') :: addCount rest k v

/-- The counting loop of `_extract_global_styles` for one counter:
`counter[f tb] += len(tb.text)` over all blocks. -/
def buildUsage {K : Type} [DecidableEq K] (f : TextBlock → K) (blocks : List TextBlock) :
    List (K × ℕ) :=
  blocks.foldl (fun m tbl => addCount m (f tbl) tbl.text.length) []

/-- `max(counter.items(), key=lambda x: x[1])[0]`: Python `max` keeps the
first of several maximal items. -/
def maxByCount {K : Type} : List (K × ℕ) → Option K
  | [] => none
  | x :: xs => some (xs.foldl (fun best y => if y.2 > best.2 then y else best) x).1

/-- `LayoutEngine._extract_global_styles`; the empty dictionary returned
for an empty block list is modelled by `none`. -/
def extract_global_styles (text_blocks : List TextBlock) : Option GlobalStyles :=
  match text_blocks with
  | [] => none
  | _ :: _ =>
    let font_usage := buildUsage (fun tbl => tbl.font_name) text_blocks
    let font_sizes := buildUsage (fun tbl => tbl.font_size) text_blocks
    some
      { default_font := (maxByCount font_usage).getD "Arial"
        default_font_size := (maxByCount font_sizes).getD 12
        font_usage := font_usage
        size_usage := font_sizes }

/-! ### Orchestrator (`LayoutEngine.reconstruct_layout` and
`LayoutEngine._reconstruct_page_layout`) -/

/-- The sort key order of `elements.sort(key=lambda e: (e.bbox[1], e.bbox[0]))`:
lexicographic on `(y0, x0)`. -/
def readingLe (a b : LayoutElement) : Prop :=
  by0 a.bbox < by0 b.bbox ∨ (by0 a.bbox = by0 b.bbox ∧ bx0 a.bbox ≤ bx0 b.bbox)

instance : DecidableRel readingLe := fun a b => by
  unfold readingLe; infer_instance

/-- Wrapping of the page-filtered text blocks, images and OCR results
into `LayoutElement`s with their type tags and z-orders, in the order
the source appends them. -/
def wrapPage (page_num : ℕ) (text_blocks : List TextBlock) (images : List ImageBlock)
    (ocr_results : List OCRResult) : List LayoutElement :=
  ((text_blocks.filter (fun tbl => tbl.page_num = (page_num : ℤ))).map
      (fun tbl => ⟨"text", .tb tbl, tbl.bbox, (page_num : ℤ), 1⟩))
  ++ ((images.filter (fun im => im.page_num = (page_num : ℤ))).map
      (fun im => ⟨"image", .img im, im.bbox, (page_num : ℤ), 0⟩))
  ++ ((ocr_results.filter (fun oc => oc.page_num = (page_num : ℤ))).map
      (fun oc => ⟨"ocr_text", .ocr oc, oc.bbox, (page_num : ℤ), 2⟩))

/-- `LayoutEngine._reconstruct_page_layout`.  `page_sizes[page_num]` is
modelled with a `(0, 0)` default; every use in this development is
in range (`page_num < page_sizes.length`). -/
def reconstruct_page_layout (page_num : ℕ) (text_blocks : List TextBlock)
    (images : List ImageBlock) (ocr_results : List OCRResult)
    (pdf : PDFDocument) : PageLayout :=
  let page_text_blocks := text_blocks.filter (fun tbl => tbl.page_num = (page_num : ℤ))
  let ps := pdf.page_sizes.getD page_num (0, 0)
  let elements := List.insertionSort readingLe
    (wrapPage page_num text_blocks images ocr_results)
  let columns := detect_columns page_text_blocks ps.1
  let margins := calculate_margins elements ps.1 ps.2
  let sep := separate_headers_footers elements ps.2
  { page_num := (page_num : ℤ)
    page_size := ps
    elements := sep.2.2
    columns := columns
    margins := margins
    headers := sep.1
    footers := sep.2.1 }

/-- The static font table of `LayoutEngine._create_font_mapping`. -/
def create_font_mapping : List (String × String) :=
  [("Arial", "Arial"), ("ArialMT", "Arial"), ("Arial-Bold", "Arial"),
   ("Arial-Italic", "Arial"), ("Arial-BoldItalic", "Arial"),
   ("Helvetica", "Arial"), ("Helvetica-Bold", "Arial"),
   ("Times-Roman", "Times New Roman"), ("Times-Bold", "Times New Roman"),
   ("Times-Italic", "Times New Roman"), ("Times-BoldItalic", "Times New Roman"),
   ("TimesNewRomanPSMT", "Times New Roman"),
   ("Courier", "Courier New"), ("Courier-Bold", "Courier New"),
   ("Courier-Oblique", "Courier New"), ("Symbol", "Symbol"),
   ("ZapfDingbats", "Wingdings")]

/-- `LayoutEngine.reconstruct_layout`. -/
def reconstruct_layout (text_blocks : List TextBlock) (images : List ImageBlock)
    (ocr_results : List OCRResult) (pdf : PDFDocument) : DocumentLayout :=
  { pages := (List.range pdf.page_count).map
      (fun pn => reconstruct_page_layout pn text_blocks images ocr_results pdf)
    global_styles := extract_global_styles text_blocks
    font_mapping := create_font_mapping }

/-! ### Raw-text-block detector (`PDFAnalyzer._detect_headers_footers`
and `PDFAnalyzer.get_page_layout`) -/

/-- A column dictionary `{x_start, x_end}` of `PDFAnalyzer._detect_columns`
(no `width` field there). -/
structure AColumn where
  x_start : ℚ
  x_end : ℚ
deriving DecidableEq

/-- The page layout dictionary returned by `PDFAnalyzer.get_page_layout`. -/
structure AnalyzerPageLayout where
  page_num : ℕ
  page_size : ℚ × ℚ
  columns : List AColumn
  headers : List TextBlock
  footers : List TextBlock
  text_blocks : List TextBlock
  images : List ImageBlock
deriving DecidableEq

/-- `PDFAnalyzer._detect_headers_footers`: thresholds are 10% and 90% of
the page height, classification is by the box edges `y0`/`y1`, and the
two list comprehensions run over the same undiminished block list. -/
def detect_headers_footers (text_blocks : List TextBlock) (page_height : ℚ) :
    List TextBlock × List TextBlock :=
  let header_threshold := page_height * (10 / 100)
  let footer_threshold := page_height * (90 / 100)
  (text_blocks.filter (fun tbl => by0 tbl.bbox < header_threshold),
   text_blocks.filter (fun tbl => by1 tbl.bbox > footer_threshold))

/-- `PDFAnalyzer._detect_columns` (single interval; the gap-scan local
variables of the source are dead code). -/
def analyzer_detect_columns (text_blocks : List TextBlock) (page_width : ℚ) :
    List AColumn :=
  match text_blocks with
  | [] => [⟨0, page_width⟩]
  | tb :: tbs =>
    let min_x := (tbs.map (fun t => bx0 t.bbox)).foldl min (bx0 tb.bbox)
    let max_x := (tbs.map (fun t => bx1 t.bbox)).foldl max (bx1 tb.bbox)
    [⟨min_x, max_x⟩]

/-- `PDFAnalyzer.get_page_layout` over a full `PDFDocument` record
(only the fields the function reads are modelled); `page_sizes[page_num]`
uses a `(0, 0)` default as in `reconstruct_page_layout`. -/
def get_page_layout (text_blocks : List TextBlock) (images : List ImageBlock)
    (pdf : PDFDocument) (page_num : ℕ) : AnalyzerPageLayout :=
  let page_text_blocks := text_blocks.filter (fun tbl => tbl.page_num = (page_num : ℤ))
  let page_images := images.filter (fun im => im.page_num = (page_num : ℤ))
  let ps := pdf.page_sizes.getD page_num (0, 0)
  let columns := analyzer_detect_columns page_text_blocks ps.1
  let hf := detect_headers_footers page_text_blocks ps.2
  { page_num := page_num
    page_size := ps
    columns := columns
    headers := hf.1
    footers := hf.2
    text_blocks := page_text_blocks
    images := page_images }

/-! ### Lemmas on the coordinate clusterer -/

/-- The gap relation between two consecutive clusters produced by
`clusterGo`: the next cluster starts strictly above, and more than
`tol` above, the previous cluster's last member. -/
def gapR (tol : ℚ) (c1 c2 : List ℚ) : Prop :=
  c1.getLastD 0 < c2.headD 0 ∧ tol < c2.headD 0 - c1.getLastD 0

theorem clusterGo_spec (tol : ℚ) :
    ∀ (rest cur : List ℚ) (lastv : ℚ), cur ≠ [] →
      List.Chain' (· < ·) (cur ++ rest) → cur.getLastD 0 = lastv →
      (∃ d t, clusterGo tol cur lastv rest = (cur ++ d) :: t) ∧
      (clusterGo tol cur lastv rest).flatten = cur ++ rest ∧
      (∀ c ∈ clusterGo tol cur lastv rest, c ≠ [] ∧ List.Chain' (· < ·) c) ∧
      List.Chain' (gapR tol) (clusterGo tol cur lastv rest) := by
  intro rest
  induction rest with
  | nil =>
    intro cur lastv hne hch _
    refine ⟨⟨[], [], by simp [clusterGo]⟩, by simp [clusterGo], ?_, by simp [clusterGo]⟩
    intro c hc
    simp only [clusterGo, List.mem_singleton] at hc
    subst hc
    exact ⟨hne, by simpa using hch⟩
  | cons c rest ih =>
    intro cur lastv hne hch hlast
    have hsplit := List.chain'_append.mp hch
    have hcur_last : cur.getLast? = some lastv := by
      rw [List.getLast?_eq_getLast cur hne]
      rw [List.getLastD_eq_getLast?, List.getLast?_eq_getLast cur hne] at hlast
      simpa using hlast
    have hlink : lastv < c := by
      have := hsplit.2.2 lastv (by rw [hcur_last]; rfl) c (by rfl)
      exact this
    by_cases hc : c - lastv ≤ tol
    · have hch' : List.Chain' (· < ·) ((cur ++ [c]) ++ rest) := by
        simpa [List.append_assoc] using hch
      have hlast' : (cur ++ [c]).getLastD 0 = c := List.getLastD_concat _ _ _
      obtain ⟨⟨d, t, hdt⟩, hjoin, hmem, hchain⟩ :=
        ih (cur ++ [c]) c (by simp) hch' hlast'
      have hgo : clusterGo tol cur lastv (c :: rest) = clusterGo tol (cur ++ [c]) c rest := by
        simp [clusterGo, hc]
      refine ⟨⟨[c] ++ d, t, ?_⟩, ?_, ?_, ?_⟩
      · rw [hgo, hdt]; simp
      · rw [hgo, hjoin]; simp
      · rw [hgo]; exact hmem
      · rw [hgo]; exact hchain
    · have hchr : List.Chain' (· < ·) ([c] ++ rest) := by
        simpa using hsplit.2.1
      obtain ⟨⟨d, t, hdt⟩, hjoin, hmem, hchain⟩ :=
        ih [c] c (by simp) hchr (by simp)
      have hgo : clusterGo tol cur lastv (c :: rest) =
          cur :: clusterGo tol [c] c rest := by
        simp [clusterGo, hc]
      refine ⟨⟨[], clusterGo tol [c] c rest, by simp [hgo]⟩, ?_, ?_, ?_⟩
      · rw [hgo]; simp only [List.flatten_cons]; rw [hjoin]; simp
      · rw [hgo]
        intro x hx
        rcases List.mem_cons.mp hx with rfl | hx
        · exact ⟨hne, hsplit.1⟩
        · exact hmem x hx
      · rw [hgo]
        rw [List.chain'_cons']
        constructor
        · intro y hy
          rw [hdt] at hy
          simp only [List.head?_cons, Option.mem_def, Option.some.injEq] at hy
          subst hy
          constructor
          · rw [hlast]
            simp only [List.cons_append, List.headD_cons]
            exact hlink
          · rw [hlast]
            simp only [List.cons_append, List.headD_cons]
            linarith [not_le.mp hc]
        · exact hchain

theorem mean_singleton (x : ℚ) : mean [x] = x := by
  simp [mean]

theorem getLastD_mem_of_ne_nil {l : List ℚ} (h : l ≠ []) : l.getLastD 0 ∈ l := by
  rw [List.getLastD_eq_getLast?, List.getLast?_eq_getLast l h]
  simp only [Option.getD_some]
  exact List.getLast_mem h

theorem getLastD_cons_cons (a b : ℚ) (l : List ℚ) :
    (a :: b :: l).getLastD 0 = (b :: l).getLastD 0 := by
  rw [List.getLastD_eq_getLast?, List.getLastD_eq_getLast?, List.getLast?_cons_cons]

theorem pairwise_le_getLastD {l : List ℚ} (hpw : List.Pairwise (· ≤ ·) l) :
    ∀ x ∈ l, x ≤ l.getLastD 0 := by
  induction l with
  | nil => simp
  | cons a l' ih =>
    intro x hx
    cases l' with
    | nil =>
      rcases List.mem_cons.mp hx with rfl | hx
      · simp
      · simp at hx
    | cons b l'' =>
      rw [getLastD_cons_cons]
      rcases List.mem_cons.mp hx with rfl | hx
      · exact (List.pairwise_cons.mp hpw).1 _ (getLastD_mem_of_ne_nil (by simp))
      · exact ih (List.pairwise_cons.mp hpw).2 x hx

theorem mean_bounds (l : List ℚ) (hne : l ≠ []) (hch : List.Chain' (· < ·) l) :
    l.headD 0 ≤ mean l ∧ mean l ≤ l.getLastD 0 := by
  have hpw : List.Pairwise (· < ·) l := List.chain'_iff_pairwise.mp hch
  have hpwle : List.Pairwise (· ≤ ·) l := hpw.imp (fun h => le_of_lt h)
  have hlen : 0 < (l.length : ℚ) := by
    have : 0 < l.length := List.length_pos.mpr hne
    exact_mod_cast this
  constructor
  · obtain ⟨a, l', rfl⟩ := List.exists_cons_of_ne_nil hne
    have hlow : ∀ x ∈ a :: l', a ≤ x := by
      intro x hx
      rcases List.mem_cons.mp hx with rfl | hx
      · exact le_refl x
      · exact le_of_lt ((List.pairwise_cons.mp hpw).1 x hx)
    have hsum : (a :: l').length • a ≤ (a :: l').sum :=
      List.card_nsmul_le_sum _ a hlow
    rw [nsmul_eq_mul] at hsum
    show a ≤ mean (a :: l')
    rw [mean, le_div_iff₀ hlen]
    calc a * ((a :: l').length : ℚ) = ((a :: l').length : ℚ) * a := by ring
    _ ≤ (a :: l').sum := hsum
  · have hsum : l.sum ≤ l.length • (l.getLastD 0) :=
      List.sum_le_card_nsmul _ _ (pairwise_le_getLastD hpwle)
    rw [nsmul_eq_mul] at hsum
    rw [mean, div_le_iff₀ hlen]
    calc l.sum ≤ (l.length : ℚ) * l.getLastD 0 := hsum
    _ = l.getLastD 0 * (l.length : ℚ) := by ring

theorem chain'_map_of_chain' {α β : Type} {R : α → α → Prop} {S : β → β → Prop}
    {P : α → Prop} (f : α → β) :
    ∀ l : List α, (∀ x ∈ l, P x) → (∀ x y, P x → P y → R x y → S (f x) (f y)) →
      List.Chain' R l → List.Chain' S (l.map f) := by
  intro l
  induction l with
  | nil => intro _ _ _; simp
  | cons x xs ih =>
    intro hP hRS hch
    cases xs with
    | nil => simp
    | cons y ys =>
      rw [List.map_cons, List.map_cons, List.chain'_cons]
      obtain ⟨hxy, hch'⟩ := List.chain'_cons.mp hch
      refine ⟨hRS x y (hP x (by simp)) (hP y (by simp)) hxy, ?_⟩
      have := ih (fun z hz => hP z (List.mem_cons_of_mem x hz)) hRS hch'
      simpa using this

/-- The output of the clusterer is strictly increasing with consecutive
gaps strictly greater than the tolerance. -/
theorem cluster_chain (l : List ℚ) (tol : ℚ) :
    List.Chain' (fun a b => a < b ∧ tol < b - a) (cluster_coordinates l tol) := by
  have hsorted : List.Sorted (· ≤ ·) (List.insertionSort (· ≤ ·) l.dedup) :=
    List.sorted_insertionSort (· ≤ ·) l.dedup
  have hnodup : (List.insertionSort (· ≤ ·) l.dedup).Nodup :=
    ((List.perm_insertionSort (· ≤ ·) l.dedup).nodup_iff).mpr (List.nodup_dedup l)
  have hlt : List.Chain' (· < ·) (List.insertionSort (· ≤ ·) l.dedup) := by
    rw [List.chain'_iff_pairwise]
    exact hsorted.imp₂ (fun a b hab hne => lt_of_le_of_ne hab hne) hnodup
  unfold cluster_coordinates
  cases hs : List.insertionSort (· ≤ ·) l.dedup with
  | nil => simp
  | cons c cs =>
    rw [hs] at hlt
    obtain ⟨_, _, hmem, hchain⟩ :=
      clusterGo_spec tol cs [c] c (by simp) (by simpa using hlt) (by simp)
    exact chain'_map_of_chain' mean _ hmem
      (fun c1 c2 hc1 hc2 hg => by
        obtain ⟨h1lo, h1hi⟩ := mean_bounds c1 hc1.1 hc1.2
        obtain ⟨h2lo, h2hi⟩ := mean_bounds c2 hc2.1 hc2.2
        obtain ⟨hlt', hgap⟩ := hg
        exact ⟨by linarith, by linarith⟩) hchain

theorem clusterGo_singletons (tol : ℚ) :
    ∀ (os : List ℚ) (o : ℚ), List.Chain' (fun a b => a < b ∧ tol < b - a) (o :: os) →
      clusterGo tol [o] o os = (o :: os).map (fun x => [x]) := by
  intro os
  induction os with
  | nil => intro o _; simp [clusterGo]
  | cons c os' ih =>
    intro o hch
    obtain ⟨⟨_, hgap⟩, hch'⟩ := List.chain'_cons.mp hch
    unfold clusterGo
    rw [if_neg (not_le.mpr hgap)]
    rw [ih c hch']
    simp

/-- A list that is strictly increasing with gaps above the tolerance is
a fixed point of the clusterer. -/
theorem cluster_fixpoint (out : List ℚ) (tol : ℚ)
    (h : List.Chain' (fun a b => a < b ∧ tol < b - a) out) :
    cluster_coordinates out tol = out := by
  have hlt : List.Chain' (· < ·) out := h.imp (fun a b hab => hab.1)
  have hpw : List.Pairwise (· < ·) out := List.chain'_iff_pairwise.mp hlt
  have hnodup : out.Nodup := hpw.imp (fun hab => ne_of_lt hab)
  have hsorted : List.Sorted (· ≤ ·) out := hpw.imp (fun hab => le_of_lt hab)
  have hdedup : out.dedup = out := List.dedup_eq_self.mpr hnodup
  have hsort : List.insertionSort (· ≤ ·) out.dedup = out := by
    rw [hdedup]
    exact hsorted.insertionSort_eq
  unfold cluster_coordinates
  rw [hsort]
  cases out with
  | nil => rfl
  | cons o os =>
    show List.map mean (clusterGo tol [o] o os) = o :: os
    rw [clusterGo_singletons tol os o h]
    rw [List.map_map]
    have : (mean ∘ fun x => [x]) = id := by
      funext x
      simp [Function.comp, mean_singleton]
    rw [this, List.map_id]

/-! ### Lemmas on the header/footer separator and the page assembly -/

theorem septhree_eq (ht ft : ℚ) (l : List LayoutElement) :
    septhree ht ft l =
      (l.filter (fun e => yCenter e < ht),
       l.filter (fun e => ¬(yCenter e < ht) ∧ yCenter e > ft),
       l.filter (fun e => ¬(yCenter e < ht) ∧ ¬(yCenter e > ft))) := by
  induction l with
  | nil => rfl
  | cons e rest ih =>
    simp only [septhree, ih]
    by_cases h1 : yCenter e < ht
    · simp [List.filter_cons, h1]
    · by_cases h2 : yCenter e > ft
      · simp [List.filter_cons, h1, h2, not_lt.mp h1]
      · simp [List.filter_cons, h1, h2, not_lt.mp h1, not_lt.mp h2]

theorem rpl_headers (pn : ℕ) (tbs : List TextBlock) (imgs : List ImageBlock)
    (ocrs : List OCRResult) (pdf : PDFDocument) :
    (reconstruct_page_layout pn tbs imgs ocrs pdf).headers =
      (separate_headers_footers (List.insertionSort readingLe (wrapPage pn tbs imgs ocrs))
        (pdf.page_sizes.getD pn (0, 0)).2).1 := rfl

theorem rpl_footers (pn : ℕ) (tbs : List TextBlock) (imgs : List ImageBlock)
    (ocrs : List OCRResult) (pdf : PDFDocument) :
    (reconstruct_page_layout pn tbs imgs ocrs pdf).footers =
      (separate_headers_footers (List.insertionSort readingLe (wrapPage pn tbs imgs ocrs))
        (pdf.page_sizes.getD pn (0, 0)).2).2.1 := rfl

theorem rpl_elements (pn : ℕ) (tbs : List TextBlock) (imgs : List ImageBlock)
    (ocrs : List OCRResult) (pdf : PDFDocument) :
    (reconstruct_page_layout pn tbs imgs ocrs pdf).elements =
      (separate_headers_footers (List.insertionSort readingLe (wrapPage pn tbs imgs ocrs))
        (pdf.page_sizes.getD pn (0, 0)).2).2.2 := rfl

/-- Test fixture: the header-zone text block of the spec's end-to-end
scenario (page size 612 × 792, bbox (100, 60, 300, 80)). -/
def hdrTextBlock : TextBlock := ⟨"Header", (100, 60, 300, 80), "Arial", 12, 0, 0, 0⟩

/-- Test fixture: a one-page document of size 612 × 792. -/
def scenDoc : PDFDocument := ⟨1, [(612, 792)]⟩

/-- The layout element wrapping `hdrTextBlock` on page 0. -/
def hdrElement : LayoutElement := ⟨"text", .tb hdrTextBlock, (100, 60, 300, 80), 0, 1⟩

theorem mem_shf_headers {l : List LayoutElement} {ph : ℚ} {e : LayoutElement} :
    e ∈ (separate_headers_footers l ph).1 ↔ e ∈ l ∧ yCenter e < ph * (15 / 100) := by
  unfold separate_headers_footers
  rw [septhree_eq]
  simp [List.mem_filter]

theorem mem_shf_footers {l : List LayoutElement} {ph : ℚ} {e : LayoutElement} :
    e ∈ (separate_headers_footers l ph).2.1 ↔
      e ∈ l ∧ ¬(yCenter e < ph * (15 / 100)) ∧ yCenter e > ph * (85 / 100) := by
  unfold separate_headers_footers
  rw [septhree_eq]
  simp [List.mem_filter]

theorem mem_shf_body {l : List LayoutElement} {ph : ℚ} {e : LayoutElement} :
    e ∈ (separate_headers_footers l ph).2.2 ↔
      e ∈ l ∧ ¬(yCenter e < ph * (15 / 100)) ∧ ¬(yCenter e > ph * (85 / 100)) := by
  unfold separate_headers_footers
  rw [septhree_eq]
  simp [List.mem_filter]

theorem hdr_center_in_zone :
    yCenter hdrElement < (scenDoc.page_sizes.getD 0 (0, 0)).2 * (15 / 100) := by
  norm_num [yCenter, by0, by1, hdrElement, scenDoc, List.getD]

theorem hdr_sort_eval :
    List.insertionSort readingLe (wrapPage 0 [hdrTextBlock] [] []) = [hdrElement] := rfl

/-- **C3**: the header/footer separator classifies every element by its
vertical center `(y0+y1)/2`: headers exactly below `0.15 × page_height`,
footers exactly above `0.85 × page_height`, body otherwise; and on a
(612, 792) page a text block with bbox (100, 60, 300, 80) lands in
`headers` and not in `elements`. -/
theorem claim_c3_header_footer_separator (elements : List LayoutElement)
    (page_height : ℚ) (hph : 0 ≤ page_height) :
    (∀ e, e ∈ (separate_headers_footers elements page_height).1 ↔
      e ∈ elements ∧ yCenter e < page_height * (15 / 100)) ∧
    (∀ e, e ∈ (separate_headers_footers elements page_height).2.1 ↔
      e ∈ elements ∧ yCenter e > page_height * (85 / 100)) ∧
    (∀ e, e ∈ (separate_headers_footers elements page_height).2.2 ↔
      e ∈ elements ∧ ¬(yCenter e < page_height * (15 / 100)) ∧
        ¬(yCenter e > page_height * (85 / 100))) ∧
    (hdrElement ∈ (reconstruct_page_layout 0 [hdrTextBlock] [] [] scenDoc).headers ∧
     hdrElement ∉ (reconstruct_page_layout 0 [hdrTextBlock] [] [] scenDoc).elements) := by
  have hthr : page_height * (15 / 100) ≤ page_height * (85 / 100) :=
    mul_le_mul_of_nonneg_left (by norm_num) hph
  refine ⟨fun e => mem_shf_headers, ?_, fun e => mem_shf_body, ?_, ?_⟩
  · intro e
    rw [mem_shf_footers]
    constructor
    · rintro ⟨he, _, h2⟩
      exact ⟨he, h2⟩
    · rintro ⟨he, h2⟩
      exact ⟨he, not_lt.mpr (le_trans hthr (le_of_lt h2)), h2⟩
  · rw [rpl_headers, mem_shf_headers, hdr_sort_eval]
    exact ⟨by simp, hdr_center_in_zone⟩
  · rw [rpl_elements]
    intro hmem
    rw [mem_shf_body] at hmem
    exact hmem.2.1 hdr_center_in_zone

/-- **C2**: for every page layout produced by the reconstruction
operation, `headers`, `footers` and `elements` are pairwise disjoint and
their union equals the full wrapped element set of the page. -/
theorem claim_c2_partition_invariant (page_num : ℕ) (text_blocks : List TextBlock)
    (images : List ImageBlock) (ocr_results : List OCRResult) (pdf : PDFDocument) :
    (∀ e, ¬(e ∈ (reconstruct_page_layout page_num text_blocks images ocr_results pdf).headers ∧
            e ∈ (reconstruct_page_layout page_num text_blocks images ocr_results pdf).footers)) ∧
    (∀ e, ¬(e ∈ (reconstruct_page_layout page_num text_blocks images ocr_results pdf).headers ∧
            e ∈ (reconstruct_page_layout page_num text_blocks images ocr_results pdf).elements)) ∧
    (∀ e, ¬(e ∈ (reconstruct_page_layout page_num text_blocks images ocr_results pdf).footers ∧
            e ∈ (reconstruct_page_layout page_num text_blocks images ocr_results pdf).elements)) ∧
    (∀ e, e ∈ wrapPage page_num text_blocks images ocr_results ↔
      (e ∈ (reconstruct_page_layout page_num text_blocks images ocr_results pdf).headers ∨
       e ∈ (reconstruct_page_layout page_num text_blocks images ocr_results pdf).footers ∨
       e ∈ (reconstruct_page_layout page_num text_blocks images ocr_results pdf).elements)) := by
  have hmem : ∀ e : LayoutElement,
      e ∈ List.insertionSort readingLe (wrapPage page_num text_blocks images ocr_results) ↔
      e ∈ wrapPage page_num text_blocks images ocr_results :=
    fun e => (List.perm_insertionSort readingLe _).mem_iff
  refine ⟨?_, ?_, ?_, ?_⟩
  · intro e ⟨h1, h2⟩
    rw [rpl_headers, mem_shf_headers] at h1
    rw [rpl_footers, mem_shf_footers] at h2
    exact h2.2.1 h1.2
  · intro e ⟨h1, h2⟩
    rw [rpl_headers, mem_shf_headers] at h1
    rw [rpl_elements, mem_shf_body] at h2
    exact h2.2.1 h1.2
  · intro e ⟨h1, h2⟩
    rw [rpl_footers, mem_shf_footers] at h1
    rw [rpl_elements, mem_shf_body] at h2
    exact h2.2.2 h1.2.2
  · intro e
    rw [rpl_headers, rpl_footers, rpl_elements, mem_shf_headers, mem_shf_footers,
      mem_shf_body, hmem e]
    by_cases h1 : yCenter e < (pdf.page_sizes.getD page_num (0, 0)).2 * (15 / 100)
    · tauto
    · by_cases h2 : yCenter e > (pdf.page_sizes.getD page_num (0, 0)).2 * (85 / 100) <;>
        tauto

/-- **C4**: the margin calculator returns the clamped content extents,
72 points on all sides for an empty element list, and never a negative
margin. -/
theorem claim_c4_margins (elements : List LayoutElement) (page_width page_height : ℚ) :
    (calculate_margins [] page_width page_height = ⟨72, 72, 72, 72⟩) ∧
    (elements ≠ [] →
      ∃ my MY mx MX,
        my ∈ elements.map (fun e => by0 e.bbox) ∧
        (∀ y ∈ elements.map (fun e => by0 e.bbox), my ≤ y) ∧
        MY ∈ elements.map (fun e => by1 e.bbox) ∧
        (∀ y ∈ elements.map (fun e => by1 e.bbox), y ≤ MY) ∧
        mx ∈ elements.map (fun e => bx0 e.bbox) ∧
        (∀ x ∈ elements.map (fun e => bx0 e.bbox), mx ≤ x) ∧
        MX ∈ elements.map (fun e => bx1 e.bbox) ∧
        (∀ x ∈ elements.map (fun e => bx1 e.bbox), x ≤ MX) ∧
        calculate_margins elements page_width page_height =
          ⟨max 0 my, max 0 (page_height - MY), max 0 mx, max 0 (page_width - MX)⟩) ∧
    (0 ≤ (calculate_margins elements page_width page_height).top ∧
     0 ≤ (calculate_margins elements page_width page_height).bottom ∧
     0 ≤ (calculate_margins elements page_width page_height).left ∧
     0 ≤ (calculate_margins elements page_width page_height).right) := by
  refine ⟨rfl, ?_, ?_⟩
  · intro hne
    obtain ⟨e, es, rfl⟩ := List.exists_cons_of_ne_nil hne
    refine ⟨(es.map (fun el : LayoutElement => by0 el.bbox)).foldl min (by0 e.bbox),
            (es.map (fun el : LayoutElement => by1 el.bbox)).foldl max (by1 e.bbox),
            (es.map (fun el : LayoutElement => bx0 el.bbox)).foldl min (bx0 e.bbox),
            (es.map (fun el : LayoutElement => bx1 el.bbox)).foldl max (bx1 e.bbox),
            ?_, ?_, ?_, ?_, ?_, ?_, ?_, ?_, rfl⟩
    · simpa using foldl_min_mem (es.map (fun el => by0 el.bbox)) (by0 e.bbox)
    · intro y hy
      rw [List.map_cons, List.mem_cons] at hy
      rcases hy with rfl | hy
      · exact (foldl_min_le _ _).1
      · exact (foldl_min_le _ _).2 y hy
    · simpa using foldl_max_mem (es.map (fun el => by1 el.bbox)) (by1 e.bbox)
    · intro y hy
      rw [List.map_cons, List.mem_cons] at hy
      rcases hy with rfl | hy
      · exact (foldl_max_le _ _).1
      · exact (foldl_max_le _ _).2 y hy
    · simpa using foldl_min_mem (es.map (fun el => bx0 el.bbox)) (bx0 e.bbox)
    · intro x hx
      rw [List.map_cons, List.mem_cons] at hx
      rcases hx with rfl | hx
      · exact (foldl_min_le _ _).1
      · exact (foldl_min_le _ _).2 x hx
    · simpa using foldl_max_mem (es.map (fun el => bx1 el.bbox)) (bx1 e.bbox)
    · intro x hx
      rw [List.map_cons, List.mem_cons] at hx
      rcases hx with rfl | hx
      · exact (foldl_max_le _ _).1
      · exact (foldl_max_le _ _).2 x hx
  · cases elements with
    | nil => refine ⟨?_, ?_, ?_, ?_⟩ <;> norm_num [calculate_margins]
    | cons e es => refine ⟨?_, ?_, ?_, ?_⟩ <;> exact le_max_left 0 _

/-- **C8**: the column detector always returns exactly one interval:
`[min x0, max x1]` over the text blocks when there are any, and
`[0, page_width]` otherwise. -/
theorem claim_c8_single_column (text_blocks : List TextBlock) (page_width : ℚ) :
    ((detect_columns text_blocks page_width).length = 1) ∧
    (text_blocks = [] →
      detect_columns text_blocks page_width = [⟨0, page_width, page_width⟩]) ∧
    (text_blocks ≠ [] →
      ∃ mx MX,
        mx ∈ text_blocks.map (fun t => bx0 t.bbox) ∧
        (∀ x ∈ text_blocks.map (fun t => bx0 t.bbox), mx ≤ x) ∧
        MX ∈ text_blocks.map (fun t => bx1 t.bbox) ∧
        (∀ x ∈ text_blocks.map (fun t => bx1 t.bbox), x ≤ MX) ∧
        detect_columns text_blocks page_width = [⟨mx, MX, MX - mx⟩]) := by
  refine ⟨?_, ?_, ?_⟩
  · cases text_blocks with
    | nil => rfl
    | cons tb tbs => rfl
  · intro h; subst h; rfl
  · intro hne
    obtain ⟨tb, tbs, rfl⟩ := List.exists_cons_of_ne_nil hne
    refine ⟨(tbs.map (fun t : TextBlock => bx0 t.bbox)).foldl min (bx0 tb.bbox),
            (tbs.map (fun t : TextBlock => bx1 t.bbox)).foldl max (bx1 tb.bbox),
            ?_, ?_, ?_, ?_, rfl⟩
    · simpa using foldl_min_mem (tbs.map (fun t => bx0 t.bbox)) (bx0 tb.bbox)
    · intro x hx
      rw [List.map_cons, List.mem_cons] at hx
      rcases hx with rfl | hx
      · exact (foldl_min_le _ _).1
      · exact (foldl_min_le _ _).2 x hx
    · simpa using foldl_max_mem (tbs.map (fun t => bx1 t.bbox)) (bx1 tb.bbox)
    · intro x hx
      rw [List.map_cons, List.mem_cons] at hx
      rcases hx with rfl | hx
      · exact (foldl_max_le _ _).1
      · exact (foldl_max_le _ _).2 x hx

theorem pos_of_max_ne_zero {t : ℚ} (h : max 0 t ≠ 0) : 0 < t := by
  by_contra hle
  exact h (max_eq_left (not_lt.mp hle))

/-- **C7**: the overlap check returns `false` whenever the overlap
region has zero width or height, and the division by the smaller box
area is only reached when both boxes have strictly positive area. -/
theorem claim_c7_overlap_guard (elem1 elem2 : LayoutElement) (threshold : ℚ) :
    (max 0 (min (bx1 elem1.bbox) (bx1 elem2.bbox) -
        max (bx0 elem1.bbox) (bx0 elem2.bbox)) = 0 ∨
     max 0 (min (by1 elem1.bbox) (by1 elem2.bbox) -
        max (by0 elem1.bbox) (by0 elem2.bbox)) = 0 →
      elements_overlap elem1 elem2 threshold = false) ∧
    (max 0 (min (bx1 elem1.bbox) (bx1 elem2.bbox) -
        max (bx0 elem1.bbox) (bx0 elem2.bbox)) ≠ 0 →
     max 0 (min (by1 elem1.bbox) (by1 elem2.bbox) -
        max (by0 elem1.bbox) (by0 elem2.bbox)) ≠ 0 →
      0 < (bx1 elem1.bbox - bx0 elem1.bbox) * (by1 elem1.bbox - by0 elem1.bbox) ∧
      0 < (bx1 elem2.bbox - bx0 elem2.bbox) * (by1 elem2.bbox - by0 elem2.bbox) ∧
      0 < min ((bx1 elem1.bbox - bx0 elem1.bbox) * (by1 elem1.bbox - by0 elem1.bbox))
            ((bx1 elem2.bbox - bx0 elem2.bbox) * (by1 elem2.bbox - by0 elem2.bbox))) := by
  constructor
  · intro h
    unfold elements_overlap
    rw [if_pos h]
  · intro hx hy
    have hxpos := pos_of_max_ne_zero hx
    have hypos := pos_of_max_ne_zero hy
    have hw1 : 0 < bx1 elem1.bbox - bx0 elem1.bbox := by
      have h1 := min_le_left (bx1 elem1.bbox) (bx1 elem2.bbox)
      have h2 := le_max_left (bx0 elem1.bbox) (bx0 elem2.bbox)
      linarith
    have hw2 : 0 < bx1 elem2.bbox - bx0 elem2.bbox := by
      have h1 := min_le_right (bx1 elem1.bbox) (bx1 elem2.bbox)
      have h2 := le_max_right (bx0 elem1.bbox) (bx0 elem2.bbox)
      linarith
    have hh1 : 0 < by1 elem1.bbox - by0 elem1.bbox := by
      have h1 := min_le_left (by1 elem1.bbox) (by1 elem2.bbox)
      have h2 := le_max_left (by0 elem1.bbox) (by0 elem2.bbox)
      linarith
    have hh2 : 0 < by1 elem2.bbox - by0 elem2.bbox := by
      have h1 := min_le_right (by1 elem1.bbox) (by1 elem2.bbox)
      have h2 := le_max_right (by0 elem1.bbox) (by0 elem2.bbox)
      linarith
    exact ⟨mul_pos hw1 hh1, mul_pos hw2 hh2,
      lt_min (mul_pos hw1 hh1) (mul_pos hw2 hh2)⟩

/-- **C5**: coordinate clustering is idempotent: re-clustering the
cluster output with the same tolerance returns it unchanged. -/
theorem claim_c5_cluster_idempotent (coordinates : List ℚ) (tolerance : ℚ) :
    cluster_coordinates (cluster_coordinates coordinates tolerance) tolerance =
      cluster_coordinates coordinates tolerance :=
  cluster_fixpoint _ _ (cluster_chain coordinates tolerance)

/-! ### Lemmas on the element merger -/

theorem merge_pair (a b : LayoutElement) (h : elements_overlap a b (7 / 10) = true) :
    merge_overlapping_elements [a, b] =
      [if a.element_type = "text" ∨ b.element_type = "image" then a else b] := by
  have hr : List.range (List.length [a, b]) = [0, 1] := rfl
  unfold merge_overlapping_elements
  rw [if_neg (by simp), hr]
  simp [mergeOuter, mergeInner, h, List.range']

theorem mergeOuter_length_le (elems : List LayoutElement) :
    ∀ (is skip : List ℕ), (mergeOuter elems is skip).length ≤ is.length := by
  intro is
  induction is with
  | nil => intro skip; simp [mergeOuter]
  | cons i rest ih =>
    intro skip
    by_cases hi : i ∈ skip
    · rw [show mergeOuter elems (i :: rest) skip = mergeOuter elems rest skip from by
        simp [mergeOuter, hi]]
      exact le_trans (ih skip) (Nat.le_succ _)
    · cases hg : elems[i]? with
      | none =>
        rw [show mergeOuter elems (i :: rest) skip = mergeOuter elems rest skip from by
          simp [mergeOuter, hi, hg]]
        exact le_trans (ih skip) (Nat.le_succ _)
      | some e1 =>
        rw [show mergeOuter elems (i :: rest) skip =
            (mergeInner elems e1 (List.range' (i + 1) (elems.length - (i + 1))) skip e1).1 ::
              mergeOuter elems rest
                (mergeInner elems e1 (List.range' (i + 1) (elems.length - (i + 1))) skip e1).2
            from by simp [mergeOuter, hi, hg]]
        simp only [List.length_cons]
        exact Nat.succ_le_succ (ih _)

theorem merge_length_le (l : List LayoutElement) :
    (merge_overlapping_elements l).length ≤ l.length := by
  unfold merge_overlapping_elements
  split
  · exact le_refl _
  · simpa using mergeOuter_length_le l (List.range l.length) []

/-- Test fixture: the text box of the spec's overlap scenario. -/
def scenTextBlock : TextBlock := ⟨"Body", (0, 0, 100, 100), "Arial", 12, 0, 0, 0⟩

/-- Test fixture: the image box of the spec's overlap scenario,
fully inside the text box. -/
def scenImageBlock : ImageBlock := ⟨[], (10, 10, 90, 90), 80, 80, 0, "png"⟩

/-- The layout element wrapping `scenTextBlock` on page 0. -/
def scenTextElement : LayoutElement := ⟨"text", .tb scenTextBlock, (0, 0, 100, 100), 0, 1⟩

/-- The layout element wrapping `scenImageBlock` on page 0. -/
def scenImageElement : LayoutElement := ⟨"image", .img scenImageBlock, (10, 10, 90, 90), 0, 0⟩

theorem scen_overlap : elements_overlap scenTextElement scenImageElement (7 / 10) = true := by
  unfold elements_overlap
  norm_num [min_def, max_def, bx0, bx1, by0, by1, scenTextElement, scenImageElement,
    scenTextBlock, scenImageBlock]

/-- **C1**: a pair with overlap ratio above 0.7 is merged to the single
element given by the keep-rule (`a` if `a` is text or `b` is image, else
`b`); the spec's text-over-image scenario keeps only the text element;
and merging never lengthens the sequence. -/
theorem claim_c1_merge_rule (a b : LayoutElement)
    (h : elements_overlap a b (7 / 10) = true) :
    (merge_overlapping_elements [a, b] =
      [if a.element_type = "text" ∨ b.element_type = "image" then a else b]) ∧
    (merge_overlapping_elements
        (List.insertionSort readingLe (wrapPage 0 [scenTextBlock] [scenImageBlock] [])) =
      [scenTextElement]) ∧
    (∀ l : List LayoutElement, (merge_overlapping_elements l).length ≤ l.length) := by
  refine ⟨merge_pair a b h, ?_, fun l => merge_length_le l⟩
  have hs : List.insertionSort readingLe (wrapPage 0 [scenTextBlock] [scenImageBlock] []) =
      [scenTextElement, scenImageElement] := rfl
  rw [hs, merge_pair _ _ scen_overlap]
  simp [scenTextElement]

/-! ### Lemmas on the orchestrator's page filtering -/

/-- The `page_num` field of the block a content value refers to. -/
def contentPageNum : Content → ℤ
  | .tb t => t.page_num
  | .img i => i.page_num
  | .ocr o => o.page_num

/-- The underlying block of a content value is one of the three input
sequences' items. -/
def contentInInputs (c : Content) (text_blocks : List TextBlock)
    (images : List ImageBlock) (ocr_results : List OCRResult) : Prop :=
  match c with
  | .tb t => t ∈ text_blocks
  | .img i => i ∈ images
  | .ocr o => o ∈ ocr_results

theorem mem_wrapPage_pageNum {pn : ℕ} {tbs : List TextBlock} {imgs : List ImageBlock}
    {ocrs : List OCRResult} {e : LayoutElement}
    (he : e ∈ wrapPage pn tbs imgs ocrs) : contentPageNum e.content = (pn : ℤ) := by
  unfold wrapPage at he
  rcases List.mem_append.mp he with h | h
  · rcases List.mem_append.mp h with h' | h'
    · obtain ⟨tb, htb, rfl⟩ := List.mem_map.mp h'
      have := (List.mem_filter.mp htb).2
      simp only [decide_eq_true_eq] at this
      simpa [contentPageNum] using this
    · obtain ⟨im, him, rfl⟩ := List.mem_map.mp h'
      have := (List.mem_filter.mp him).2
      simp only [decide_eq_true_eq] at this
      simpa [contentPageNum] using this
  · obtain ⟨oc, hoc, rfl⟩ := List.mem_map.mp h
    have := (List.mem_filter.mp hoc).2
    simp only [decide_eq_true_eq] at this
    simpa [contentPageNum] using this

theorem rl_pages (tbs : List TextBlock) (imgs : List ImageBlock)
    (ocrs : List OCRResult) (pdf : PDFDocument) :
    (reconstruct_layout tbs imgs ocrs pdf).pages =
      (List.range pdf.page_count).map
        (fun pn => reconstruct_page_layout pn tbs imgs ocrs pdf) := rfl

/-- **C9**: an input item whose `page_num` lies outside `[0, page_count)`
is silently excluded from every page of the reconstructed layout. -/
theorem claim_c9_out_of_range_filtered (text_blocks : List TextBlock)
    (images : List ImageBlock) (ocr_results : List OCRResult) (pdf : PDFDocument)
    (c : Content) (_hc : contentInInputs c text_blocks images ocr_results)
    (hbad : contentPageNum c < 0 ∨ (pdf.page_count : ℤ) ≤ contentPageNum c) :
    ∀ p ∈ (reconstruct_layout text_blocks images ocr_results pdf).pages,
      ∀ e ∈ p.headers ++ p.footers ++ p.elements, e.content ≠ c := by
  intro p hp e he heq
  rw [rl_pages] at hp
  obtain ⟨pn, hpn, rfl⟩ := List.mem_map.mp hp
  have hlt : pn < pdf.page_count := List.mem_range.mp hpn
  have hsortmem : e ∈ List.insertionSort readingLe
      (wrapPage pn text_blocks images ocr_results) := by
    rcases List.mem_append.mp he with h | h
    · rcases List.mem_append.mp h with h' | h'
      · rw [rpl_headers, mem_shf_headers] at h'
        exact h'.1
      · rw [rpl_footers, mem_shf_footers] at h'
        exact h'.1
    · rw [rpl_elements, mem_shf_body] at h
      exact h.1
  have hw : e ∈ wrapPage pn text_blocks images ocr_results :=
    (List.perm_insertionSort readingLe _).mem_iff.mp hsortmem
  have hpage := mem_wrapPage_pageNum hw
  rw [heq] at hpage
  rcases hbad with hneg | hge
  · rw [hpage] at hneg
    omega
  · rw [hpage] at hge
    have : (pn : ℤ) < (pdf.page_count : ℤ) := by exact_mod_cast hlt
    linarith

/-! ### The raw-text-block header/footer detector of `pdf_analyzer.py` -/

theorem mem_dhf_headers {tbs : List TextBlock} {ph : ℚ} {tb : TextBlock} :
    tb ∈ (detect_headers_footers tbs ph).1 ↔
      tb ∈ tbs ∧ by0 tb.bbox < ph * (10 / 100) := by
  unfold detect_headers_footers
  simp [List.mem_filter]

theorem mem_dhf_footers {tbs : List TextBlock} {ph : ℚ} {tb : TextBlock} :
    tb ∈ (detect_headers_footers tbs ph).2 ↔
      tb ∈ tbs ∧ by1 tb.bbox > ph * (90 / 100) := by
  unfold detect_headers_footers
  simp [List.mem_filter]

theorem gpl_headers (tbs : List TextBlock) (imgs : List ImageBlock)
    (pdf : PDFDocument) (pn : ℕ) :
    (get_page_layout tbs imgs pdf pn).headers =
      (detect_headers_footers (tbs.filter (fun t => t.page_num = (pn : ℤ)))
        (pdf.page_sizes.getD pn (0, 0)).2).1 := rfl

theorem gpl_footers (tbs : List TextBlock) (imgs : List ImageBlock)
    (pdf : PDFDocument) (pn : ℕ) :
    (get_page_layout tbs imgs pdf pn).footers =
      (detect_headers_footers (tbs.filter (fun t => t.page_num = (pn : ℤ)))
        (pdf.page_sizes.getD pn (0, 0)).2).2 := rfl

theorem gpl_text_blocks (tbs : List TextBlock) (imgs : List ImageBlock)
    (pdf : PDFDocument) (pn : ℕ) :
    (get_page_layout tbs imgs pdf pn).text_blocks =
      tbs.filter (fun t => t.page_num = (pn : ℤ)) := rfl

/-- Test fixture: a text block spanning from the top 10% zone of a
792-point page into its bottom 10% zone. -/
def spanTextBlock : TextBlock := ⟨"Span", (0, 10, 100, 780), "Arial", 12, 0, 0, 0⟩

/-- **C10**: the raw-text-block detector classifies by box edges
(`y0 < 0.1 h` for headers, `y1 > 0.9 h` for footers), leaves the page's
block list undiminished, and a block spanning both zones appears in both
lists, so the three groups are not a disjoint partition. -/
theorem claim_c10_raw_detector (text_blocks : List TextBlock) (page_height : ℚ) :
    (∀ tb, tb ∈ (detect_headers_footers text_blocks page_height).1 ↔
      tb ∈ text_blocks ∧ by0 tb.bbox < page_height * (10 / 100)) ∧
    (∀ tb, tb ∈ (detect_headers_footers text_blocks page_height).2 ↔
      tb ∈ text_blocks ∧ by1 tb.bbox > page_height * (90 / 100)) ∧
    (∀ (tbs : List TextBlock) (imgs : List ImageBlock) (pdf : PDFDocument) (pn : ℕ) tb,
      tb ∈ (get_page_layout tbs imgs pdf pn).headers ∨
      tb ∈ (get_page_layout tbs imgs pdf pn).footers →
        tb ∈ (get_page_layout tbs imgs pdf pn).text_blocks) ∧
    (spanTextBlock ∈ (get_page_layout [spanTextBlock] [] scenDoc 0).headers ∧
     spanTextBlock ∈ (get_page_layout [spanTextBlock] [] scenDoc 0).footers ∧
     spanTextBlock ∈ (get_page_layout [spanTextBlock] [] scenDoc 0).text_blocks) := by
  have hspan : spanTextBlock ∈
      List.filter (fun t : TextBlock => t.page_num = ((0 : ℕ) : ℤ)) [spanTextBlock] := by
    simp [spanTextBlock]
  refine ⟨fun tb => mem_dhf_headers, fun tb => mem_dhf_footers, ?_, ?_, ?_, ?_⟩
  · intro tbs imgs pdf pn tb htb
    rw [gpl_text_blocks]
    rcases htb with h | h
    · rw [gpl_headers, mem_dhf_headers] at h
      exact h.1
    · rw [gpl_footers, mem_dhf_footers] at h
      exact h.1
  · rw [gpl_headers, mem_dhf_headers]
    refine ⟨hspan, ?_⟩
    norm_num [by0, spanTextBlock, scenDoc, List.getD]
  · rw [gpl_footers, mem_dhf_footers]
    refine ⟨hspan, ?_⟩
    norm_num [by1, spanTextBlock, scenDoc, List.getD]
  · rw [gpl_text_blocks]
    exact hspan

/-! ### Lemmas on the global style analyzer

The spec-side notions for the refinement comparison: `firstSeen` is the
key insertion order of the Python `defaultdict` (first occurrence order
of the iteration over blocks), `specWeight` the total character count of
the text using a key, and `specDefault` the first key in first-seen
order whose weight is maximal — the spec's "argmax by weighted usage,
ties broken by first-seen insertion order". -/

/-- Keys of an association list, in order. -/
def keysOf {K : Type} (m : List (K × ℕ)) : List K := m.map Prod.fst

/-- Total count stored for key `k` (sum over all entries with that key;
for a nodup-key list this is the single entry's value, else 0). -/
def countOf {K : Type} [DecidableEq K] (m : List (K × ℕ)) (k : K) : ℕ :=
  ((m.filter (fun p => p.1 = k)).map Prod.snd).sum

/-- First-seen-order deduplication of a key sequence. -/
def firstSeen {K : Type} [DecidableEq K] : List K → List K
  | [] => []
  | k :: rest => k :: (firstSeen rest).filter (fun k' => k' ≠ k)

/-- The keys of `l` not yet in `seen`, in first-occurrence order. -/
def newKeys {K : Type} [DecidableEq K] (seen : List K) : List K → List K
  | [] => []
  | k :: rest => if k ∈ seen then newKeys seen rest else k :: newKeys (k :: seen) rest

/-- Spec-side weight of key `g`: total character count of the text of
all blocks mapped to `g`. -/
def specWeight {K : Type} [DecidableEq K] (f : TextBlock → K)
    (blocks : List TextBlock) (g : K) : ℕ :=
  ((blocks.filter (fun tbl => f tbl = g)).map (fun tbl => tbl.text.length)).sum

/-- Spec-side default key: the first key, in first-seen order of the
iteration over blocks, whose weight is maximal. -/
def specDefault {K : Type} [DecidableEq K] (f : TextBlock → K)
    (blocks : List TextBlock) : Option K :=
  (firstSeen (blocks.map f)).find?
    (fun g => decide (∀ g' ∈ blocks.map f, specWeight f blocks g' ≤ specWeight f blocks g))

theorem keysOf_addCount {K : Type} [DecidableEq K] :
    ∀ (m : List (K × ℕ)) (k : K) (v : ℕ),
      keysOf (addCount m k v) = if k ∈ keysOf m then keysOf m else keysOf m ++ [k] := by
  intro m
  induction m with
  | nil => intro k v; simp [addCount, keysOf]
  | cons p rest ih =>
    intro k v
    by_cases hk : p.1 = k
    · rw [show addCount (p :: rest) k v = (p.1, p.2 + v) :: rest from by
        simp [addCount, hk]]
      have hkmem : k ∈ keysOf (p :: rest) := by
        simp only [keysOf, List.map_cons, List.mem_cons]
        exact Or.inl hk.symm
      rw [if_pos hkmem]
      simp [keysOf]
    · rw [show addCount (p :: rest) k v = (p.1, p.2) :: addCount rest k v from by
        simp [addCount, hk]]
      have hcond : (k ∈ keysOf (p :: rest)) ↔ (k ∈ keysOf rest) := by
        simp only [keysOf, List.map_cons, List.mem_cons]
        constructor
        · rintro (h | h)
          · exact absurd h.symm hk
          · exact h
        · exact fun h => Or.inr h
      have ihv := ih k v
      by_cases hk2 : k ∈ keysOf rest
      · rw [if_pos (hcond.mpr hk2)]
        rw [if_pos hk2] at ihv
        simp only [keysOf, List.map_cons] at ihv ⊢
        rw [ihv]
      · rw [if_neg (fun h => hk2 (hcond.mp h))]
        rw [if_neg hk2] at ihv
        simp only [keysOf, List.map_cons] at ihv ⊢
        rw [ihv]
        simp

theorem countOf_addCount {K : Type} [DecidableEq K] :
    ∀ (m : List (K × ℕ)) (k k' : K) (v : ℕ),
      countOf (addCount m k v) k' = countOf m k' + (if k' = k then v else 0) := by
  intro m
  induction m with
  | nil =>
    intro k k' v
    by_cases h : k' = k
    · subst h
      simp [addCount, countOf]
    · have hne : ¬(k = k') := fun hh => h hh.symm
      simp [countOf, addCount, h, hne]
  | cons p rest ih =>
    intro k k' v
    by_cases hk : p.1 = k
    · rw [show addCount (p :: rest) k v = (p.1, p.2 + v) :: rest from by
        simp [addCount, hk]]
      by_cases hk' : p.1 = k'
      · have hkk' : k' = k := hk'.symm.trans hk
        have h1 : countOf ((p.1, p.2 + v) :: rest) k' = (p.2 + v) + countOf rest k' := by
          simp [countOf, List.filter_cons, hk']
        have h2 : countOf (p :: rest) k' = p.2 + countOf rest k' := by
          have : ((p.1, p.2) : K × ℕ) = p := rfl
          rw [← this]
          simp [countOf, List.filter_cons, hk']
        rw [h1, h2, if_pos hkk']
        omega
      · have hne : ¬(k' = k) := fun h => hk' (hk.trans h.symm)
        have h1 : countOf ((p.1, p.2 + v) :: rest) k' = countOf rest k' := by
          simp [countOf, List.filter_cons, hk']
        have h2 : countOf (p :: rest) k' = countOf rest k' := by
          have : ((p.1, p.2) : K × ℕ) = p := rfl
          rw [← this]
          simp [countOf, List.filter_cons, hk']
        rw [h1, h2, if_neg hne]
        omega
    · rw [show addCount (p :: rest) k v = (p.1, p.2) :: addCount rest k v from by
        simp [addCount, hk]]
      have ihv := ih k k' v
      by_cases hk' : p.1 = k'
      · have h1 : countOf ((p.1, p.2) :: addCount rest k v) k' =
            p.2 + countOf (addCount rest k v) k' := by
          simp [countOf, List.filter_cons, hk']
        have h2 : countOf (p :: rest) k' = p.2 + countOf rest k' := by
          have : ((p.1, p.2) : K × ℕ) = p := rfl
          rw [← this]
          simp [countOf, List.filter_cons, hk']
        rw [h1, h2, ihv]
        omega
      · have h1 : countOf ((p.1, p.2) :: addCount rest k v) k' =
            countOf (addCount rest k v) k' := by
          simp [countOf, List.filter_cons, hk']
        have h2 : countOf (p :: rest) k' = countOf rest k' := by
          have : ((p.1, p.2) : K × ℕ) = p := rfl
          rw [← this]
          simp [countOf, List.filter_cons, hk']
        rw [h1, h2, ihv]

theorem newKeys_congr {K : Type} [DecidableEq K] :
    ∀ (l s1 s2 : List K), (∀ x, x ∈ s1 ↔ x ∈ s2) → newKeys s1 l = newKeys s2 l := by
  intro l
  induction l with
  | nil => intro _ _ _; rfl
  | cons k rest ih =>
    intro s1 s2 hs
    unfold newKeys
    by_cases hk : k ∈ s1
    · rw [if_pos hk, if_pos ((hs k).mp hk)]
      exact ih s1 s2 hs
    · rw [if_neg hk, if_neg (fun h => hk ((hs k).mpr h))]
      congr 1
      apply ih
      intro x
      simp [List.mem_cons, hs x]

theorem foldl_addCount_keys {K : Type} [DecidableEq K] (f : TextBlock → K) :
    ∀ (blocks : List TextBlock) (m : List (K × ℕ)),
      keysOf (blocks.foldl (fun acc tbl => addCount acc (f tbl) tbl.text.length) m) =
        keysOf m ++ newKeys (keysOf m) (blocks.map f) := by
  intro blocks
  induction blocks with
  | nil => intro m; simp [newKeys]
  | cons tb rest ih =>
    intro m
    rw [List.foldl_cons, ih (addCount m (f tb) tb.text.length), keysOf_addCount,
      List.map_cons]
    by_cases hk : f tb ∈ keysOf m
    · rw [if_pos hk]
      conv_rhs => rw [newKeys]
      rw [if_pos hk]
    · rw [if_neg hk]
      conv_rhs => rw [newKeys]
      rw [if_neg hk]
      rw [newKeys_congr (rest.map f) (keysOf m ++ [f tb]) (f tb :: keysOf m)
        (by intro x; simp [or_comm])]
      simp

theorem foldl_addCount_countOf {K : Type} [DecidableEq K] (f : TextBlock → K) :
    ∀ (blocks : List TextBlock) (m : List (K × ℕ)) (k : K),
      countOf (blocks.foldl (fun acc tbl => addCount acc (f tbl) tbl.text.length) m) k =
        countOf m k + specWeight f blocks k := by
  intro blocks
  induction blocks with
  | nil => intro m k; simp [specWeight]
  | cons tb rest ih =>
    intro m k
    rw [List.foldl_cons, ih, countOf_addCount]
    have hw : specWeight f (tb :: rest) k =
        (if k = f tb then tb.text.length else 0) + specWeight f rest k := by
      unfold specWeight
      rw [List.filter_cons]
      by_cases h : f tb = k
      · rw [if_pos (by simp [h]), if_pos h.symm]
        simp
      · rw [if_neg (by simp [h]), if_neg (fun hh => h hh.symm)]
        simp
    rw [hw]
    omega

theorem newKeys_not_mem {K : Type} [DecidableEq K] :
    ∀ (l seen : List K) (x : K), x ∈ newKeys seen l → x ∉ seen := by
  intro l
  induction l with
  | nil => intro seen x h; simp [newKeys] at h
  | cons k rest ih =>
    intro seen x h
    unfold newKeys at h
    by_cases hk : k ∈ seen
    · rw [if_pos hk] at h
      exact ih seen x h
    · rw [if_neg hk] at h
      rcases List.mem_cons.mp h with rfl | h
      · exact hk
      · intro hx
        exact (ih (k :: seen) x h) (List.mem_cons_of_mem k hx)

theorem newKeys_nodup {K : Type} [DecidableEq K] :
    ∀ (l seen : List K), (newKeys seen l).Nodup := by
  intro l
  induction l with
  | nil => intro seen; simp [newKeys]
  | cons k rest ih =>
    intro seen
    unfold newKeys
    by_cases hk : k ∈ seen
    · rw [if_pos hk]
      exact ih seen
    · rw [if_neg hk]
      refine List.nodup_cons.mpr ⟨?_, ih (k :: seen)⟩
      intro hmem
      exact newKeys_not_mem rest (k :: seen) k hmem (by simp)

theorem mem_firstSeen {K : Type} [DecidableEq K] :
    ∀ (l : List K) (x : K), x ∈ firstSeen l ↔ x ∈ l := by
  intro l
  induction l with
  | nil => intro x; simp [firstSeen]
  | cons k rest ih =>
    intro x
    unfold firstSeen
    simp only [List.mem_cons, List.mem_filter, decide_eq_true_eq]
    constructor
    · rintro (rfl | ⟨h, _⟩)
      · exact Or.inl rfl
      · exact Or.inr ((ih x).mp h)
    · rintro (rfl | h)
      · exact Or.inl rfl
      · by_cases hx : x = k
        · exact Or.inl hx
        · exact Or.inr ⟨(ih x).mpr h, hx⟩

theorem newKeys_eq_firstSeen_filter {K : Type} [DecidableEq K] :
    ∀ (l seen : List K),
      newKeys seen l = (firstSeen l).filter (fun x => x ∉ seen) := by
  intro l
  induction l with
  | nil => intro seen; simp [newKeys, firstSeen]
  | cons k rest ih =>
    intro seen
    unfold newKeys firstSeen
    by_cases hk : k ∈ seen
    · rw [if_pos hk, List.filter_cons, if_neg (by simp [hk]), ih seen, List.filter_filter]
      apply List.filter_congr
      intro x _
      by_cases hxs : x ∈ seen
      · simp [hxs]
      · have hxk : x ≠ k := fun h => hxs (h ▸ hk)
        simp [hxs, hxk]
    · rw [if_neg hk, List.filter_cons, if_pos (by simp [hk])]
      congr 1
      rw [ih (k :: seen), List.filter_filter]
      apply List.filter_congr
      intro x _
      by_cases hxk : x = k
      · simp [hxk]
      · by_cases hxs : x ∈ seen
        · simp [hxk, hxs]
        · simp [hxk, hxs]

theorem countOf_eq_zero_of_not_mem {K : Type} [DecidableEq K] :
    ∀ (m : List (K × ℕ)) (k : K), k ∉ keysOf m → countOf m k = 0 := by
  intro m
  induction m with
  | nil => intro k _; simp [countOf]
  | cons p rest ih =>
    intro k hk
    have h1 : ¬(p.1 = k) := fun h => hk (by simp [keysOf, h])
    have h2 : k ∉ keysOf rest := fun h => hk (by simp [keysOf] at h ⊢; exact Or.inr h)
    have hstep : countOf (p :: rest) k = countOf rest k := by
      have hp : ((p.1, p.2) : K × ℕ) = p := rfl
      rw [← hp]
      simp [countOf, List.filter_cons, h1]
    rw [hstep]
    exact ih k h2

theorem mem_countOf {K : Type} [DecidableEq K] :
    ∀ (m : List (K × ℕ)), (keysOf m).Nodup → ∀ p ∈ m, countOf m p.1 = p.2 := by
  intro m
  induction m with
  | nil => intro _ p hp; simp at hp
  | cons q rest ih =>
    intro hnd p hp
    have hnd0 : q.1 ∉ keysOf rest ∧ (keysOf rest).Nodup := by
      have : keysOf (q :: rest) = q.1 :: keysOf rest := rfl
      rw [this] at hnd
      exact List.nodup_cons.mp hnd
    rcases List.mem_cons.mp hp with rfl | hp'
    · have hstep : countOf (p :: rest) p.1 = p.2 + countOf rest p.1 := by
        have hp2 : ((p.1, p.2) : K × ℕ) = p := rfl
        rw [← hp2]
        simp [countOf, List.filter_cons]
      rw [hstep, countOf_eq_zero_of_not_mem rest p.1 hnd0.1]
      omega
    · have hp1 : p.1 ∈ keysOf rest := by
        simp only [keysOf, List.mem_map]
        exact ⟨p, hp', rfl⟩
      have hne : ¬(q.1 = p.1) := fun h => hnd0.1 (h ▸ hp1)
      have hstep : countOf (q :: rest) p.1 = countOf rest p.1 := by
        have hq2 : ((q.1, q.2) : K × ℕ) = q := rfl
        rw [← hq2]
        simp [countOf, List.filter_cons, hne]
      rw [hstep]
      exact ih hnd0.2 p hp'

/-- The fold of Python's `max(items, key=...)`: keeps the current
candidate unless a strictly larger one appears. -/
def pickMax {K : Type} (x0 : K × ℕ) (xs : List (K × ℕ)) : K × ℕ :=
  xs.foldl (fun best y => if y.2 > best.2 then y else best) x0

theorem maxByCount_cons {K : Type} (x0 : K × ℕ) (xs : List (K × ℕ)) :
    maxByCount (x0 :: xs) = some (pickMax x0 xs).1 := rfl

theorem pickMax_cases {K : Type} :
    ∀ (xs : List (K × ℕ)) (x0 : K × ℕ),
      pickMax x0 xs = x0 ∨ (pickMax x0 xs ∈ xs ∧ x0.2 < (pickMax x0 xs).2) := by
  intro xs
  induction xs with
  | nil => intro x0; left; rfl
  | cons y rest ih =>
    intro x0
    rw [show pickMax x0 (y :: rest) = pickMax (if y.2 > x0.2 then y else x0) rest from rfl]
    by_cases hy : y.2 > x0.2
    · rw [if_pos hy]
      rcases ih y with h | ⟨hmem, hlt⟩
      · right
        exact ⟨by rw [h]; exact List.mem_cons_self y rest, by rw [h]; exact hy⟩
      · right
        exact ⟨List.mem_cons_of_mem y hmem, lt_trans hy hlt⟩
    · rw [if_neg hy]
      rcases ih x0 with h | ⟨hmem, hlt⟩
      · left; exact h
      · right; exact ⟨List.mem_cons_of_mem y hmem, hlt⟩

theorem pickMax_ge {K : Type} :
    ∀ (xs : List (K × ℕ)) (x0 : K × ℕ),
      x0.2 ≤ (pickMax x0 xs).2 ∧ ∀ y ∈ xs, y.2 ≤ (pickMax x0 xs).2 := by
  intro xs
  induction xs with
  | nil => intro x0; exact ⟨le_refl _, by simp⟩
  | cons y rest ih =>
    intro x0
    rw [show pickMax x0 (y :: rest) = pickMax (if y.2 > x0.2 then y else x0) rest from rfl]
    by_cases hy : y.2 > x0.2
    · rw [if_pos hy]
      obtain ⟨h1, h2⟩ := ih y
      refine ⟨le_trans (le_of_lt hy) h1, ?_⟩
      intro z hz
      rcases List.mem_cons.mp hz with rfl | hz
      · exact h1
      · exact h2 z hz
    · rw [if_neg hy]
      obtain ⟨h1, h2⟩ := ih x0
      refine ⟨h1, ?_⟩
      intro z hz
      rcases List.mem_cons.mp hz with rfl | hz
      · exact le_trans (not_lt.mp hy) h1
      · exact h2 z hz

theorem pickMax_find {K : Type} :
    ∀ (xs : List (K × ℕ)) (x0 : K × ℕ),
      (x0 :: xs).find? (fun y => decide ((pickMax x0 xs).2 ≤ y.2)) =
        some (pickMax x0 xs) := by
  intro xs
  induction xs with
  | nil =>
    intro x0
    simp [List.find?, pickMax]
  | cons y rest ih =>
    intro x0
    rw [show pickMax x0 (y :: rest) = pickMax (if y.2 > x0.2 then y else x0) rest from rfl]
    by_cases hy : y.2 > x0.2
    · rw [if_pos hy]
      have hge := (pickMax_ge rest y).1
      have hx0 : ¬(decide ((pickMax y rest).2 ≤ x0.2) = true) := by
        simp only [decide_eq_true_eq]
        intro hle
        exact absurd hy (not_lt.mpr (le_trans hge hle))
      rw [@List.find?_cons_of_neg _ (fun z => decide ((pickMax y rest).2 ≤ z.2))
        x0 (y :: rest) hx0]
      exact ih y
    · rw [if_neg hy]
      have hr := ih x0
      by_cases hx0 : (pickMax x0 rest).2 ≤ x0.2
      · have hpos : decide ((pickMax x0 rest).2 ≤ x0.2) = true := by
          simpa using hx0
        rw [@List.find?_cons_of_pos _ (fun z => decide ((pickMax x0 rest).2 ≤ z.2))
          x0 rest hpos] at hr
        rw [@List.find?_cons_of_pos _ (fun z => decide ((pickMax x0 rest).2 ≤ z.2))
          x0 (y :: rest) hpos]
        exact hr
      · have hneg : ¬(decide ((pickMax x0 rest).2 ≤ x0.2) = true) := by
          simpa using hx0
        rw [@List.find?_cons_of_neg _ (fun z => decide ((pickMax x0 rest).2 ≤ z.2))
          x0 rest hneg] at hr
        have hyneg : ¬(decide ((pickMax x0 rest).2 ≤ y.2) = true) := by
          simp only [decide_eq_true_eq]
          intro hle
          exact hx0 (le_trans hle (not_lt.mp hy))
        rw [@List.find?_cons_of_neg _ (fun z => decide ((pickMax x0 rest).2 ≤ z.2))
          x0 (y :: rest) hneg,
          @List.find?_cons_of_neg _ (fun z => decide ((pickMax x0 rest).2 ≤ z.2))
          y rest hyneg]
        exact hr

theorem find?_congr_mem {α : Type} (p q : α → Bool) :
    ∀ l : List α, (∀ x ∈ l, p x = q x) → l.find? p = l.find? q := by
  intro l
  induction l with
  | nil => intro _; rfl
  | cons a l ih =>
    intro h
    rw [List.find?_cons, List.find?_cons, h a (by simp)]
    cases hq : q a
    · simp only [hq]
      exact ih (fun x hx => h x (List.mem_cons_of_mem a hx))
    · simp only [hq]

theorem maxByCount_buildUsage {K : Type} [DecidableEq K] (f : TextBlock → K)
    (blocks : List TextBlock) (hne : blocks ≠ []) :
    maxByCount (buildUsage f blocks) = specDefault f blocks ∧
    ∃ k, maxByCount (buildUsage f blocks) = some k := by
  have hkeys : keysOf (buildUsage f blocks) = firstSeen (blocks.map f) := by
    unfold buildUsage
    rw [foldl_addCount_keys, show keysOf ([] : List (K × ℕ)) = [] from rfl,
      newKeys_eq_firstSeen_filter]
    simp
  have hnodup : (keysOf (buildUsage f blocks)).Nodup := by
    unfold buildUsage
    rw [foldl_addCount_keys, show keysOf ([] : List (K × ℕ)) = [] from rfl]
    simpa using newKeys_nodup (blocks.map f) []
  have hcount : ∀ k, countOf (buildUsage f blocks) k = specWeight f blocks k := by
    intro k
    unfold buildUsage
    rw [foldl_addCount_countOf, show countOf ([] : List (K × ℕ)) k = 0 from rfl]
    exact Nat.zero_add _
  have hentry : ∀ p ∈ buildUsage f blocks, p.2 = specWeight f blocks p.1 := by
    intro p hp
    rw [← hcount p.1]
    exact (mem_countOf _ hnodup p hp).symm
  have hune : buildUsage f blocks ≠ [] := by
    intro h
    have hkeq : keysOf (buildUsage f blocks) = [] := by rw [h]; rfl
    rw [hkeys] at hkeq
    obtain ⟨b, bs, rfl⟩ := List.exists_cons_of_ne_nil hne
    simp [firstSeen] at hkeq
  obtain ⟨x0, xs, hu⟩ := List.exists_cons_of_ne_nil hune
  have hrmem : pickMax x0 xs ∈ buildUsage f blocks := by
    rw [hu]
    rcases pickMax_cases xs x0 with h | ⟨h, _⟩
    · rw [h]; exact List.mem_cons_self x0 xs
    · exact List.mem_cons_of_mem x0 h
  have hrall : ∀ p ∈ buildUsage f blocks, p.2 ≤ (pickMax x0 xs).2 := by
    intro p hp
    rw [hu] at hp
    rcases List.mem_cons.mp hp with rfl | hp'
    · exact (pickMax_ge xs p).1
    · exact (pickMax_ge xs x0).2 p hp'
  have hkeymem : ∀ g : K, g ∈ blocks.map f ↔ ∃ q ∈ buildUsage f blocks, q.1 = g := by
    intro g
    rw [← mem_firstSeen, ← hkeys]
    unfold keysOf
    exact List.mem_map
  have hpred : ∀ q ∈ buildUsage f blocks,
      ((fun g => decide (∀ g' ∈ blocks.map f,
          specWeight f blocks g' ≤ specWeight f blocks g)) ∘ Prod.fst) q =
      (fun z => decide ((pickMax x0 xs).2 ≤ z.2)) q := by
    intro q hq
    simp only [Function.comp]
    rw [decide_eq_decide]
    have hq2 : q.2 = specWeight f blocks q.1 := hentry q hq
    have hr2 : (pickMax x0 xs).2 = specWeight f blocks (pickMax x0 xs).1 :=
      hentry _ hrmem
    constructor
    · intro hall
      have hr1mem : (pickMax x0 xs).1 ∈ blocks.map f :=
        (hkeymem _).mpr ⟨_, hrmem, rfl⟩
      rw [hq2, hr2]
      exact hall _ hr1mem
    · intro hle g' hg'
      obtain ⟨q', hq', rfl⟩ := (hkeymem g').mp hg'
      rw [← hentry q' hq', ← hq2]
      exact le_trans (hrall q' hq') hle
  constructor
  · unfold specDefault
    rw [← hkeys]
    unfold keysOf
    rw [List.find?_map, find?_congr_mem _ _ (buildUsage f blocks) hpred, hu,
      pickMax_find xs x0, maxByCount_cons]
    rfl
  · rw [hu, maxByCount_cons]
    exact ⟨_, rfl⟩

/-- **C6**: for a non-empty block collection the global style analyzer's
`default_font` (resp. `default_font_size`) is the font name (resp. size)
with maximal character-weighted usage, ties broken by first-seen
insertion order of the iteration over blocks; an empty collection yields
the empty styles record. -/
theorem claim_c6_global_styles (text_blocks : List TextBlock) :
    (text_blocks = [] → extract_global_styles text_blocks = none) ∧
    (text_blocks ≠ [] →
      ∃ gs, extract_global_styles text_blocks = some gs ∧
        some gs.default_font = specDefault (fun tbl => tbl.font_name) text_blocks ∧
        some gs.default_font_size = specDefault (fun tbl => tbl.font_size) text_blocks) := by
  constructor
  · intro h; subst h; rfl
  · intro hne
    obtain ⟨hfont, kf, hkf⟩ :=
      maxByCount_buildUsage (fun tbl => tbl.font_name) text_blocks hne
    obtain ⟨hsize, ks, hks⟩ :=
      maxByCount_buildUsage (fun tbl => tbl.font_size) text_blocks hne
    obtain ⟨b, bs, rfl⟩ := List.exists_cons_of_ne_nil hne
    refine ⟨_, rfl, ?_, ?_⟩
    · show some ((maxByCount (buildUsage (fun tbl => tbl.font_name) (b :: bs))).getD
        "Arial") = _
      rw [hkf]
      simp only [Option.getD_some]
      rw [← hkf, hfont]
    · show some ((maxByCount (buildUsage (fun tbl => tbl.font_size) (b :: bs))).getD
        12) = _
      rw [hks]
      simp only [Option.getD_some]
      rw [← hks, hsize]

/-! ### Witnesses: the claim theorems applied at concrete inputs -/

/-- Witness for C1: the concrete overlapping text/image pair merges to
the text element. -/
theorem claim_c1_merge_rule_witness :
    merge_overlapping_elements [scenTextElement, scenImageElement] = [scenTextElement] := by
  have h := (claim_c1_merge_rule scenTextElement scenImageElement scen_overlap).1
  simpa [scenTextElement, scenImageElement] using h

/-- Witness for C2 at the header-zone scenario page. -/
theorem claim_c2_partition_invariant_witness :
    hdrElement ∈ wrapPage 0 [hdrTextBlock] [] [] ↔
      (hdrElement ∈ (reconstruct_page_layout 0 [hdrTextBlock] [] [] scenDoc).headers ∨
       hdrElement ∈ (reconstruct_page_layout 0 [hdrTextBlock] [] [] scenDoc).footers ∨
       hdrElement ∈ (reconstruct_page_layout 0 [hdrTextBlock] [] [] scenDoc).elements) :=
  (claim_c2_partition_invariant 0 [hdrTextBlock] [] [] scenDoc).2.2.2 hdrElement

/-- Witness for C3: the end-to-end scenario at page height 792. -/
theorem claim_c3_header_footer_separator_witness :
    hdrElement ∈ (reconstruct_page_layout 0 [hdrTextBlock] [] [] scenDoc).headers ∧
    hdrElement ∉ (reconstruct_page_layout 0 [hdrTextBlock] [] [] scenDoc).elements :=
  (claim_c3_header_footer_separator [] 792 (by norm_num)).2.2.2

/-- Witness for C4 on a one-element page. -/
theorem claim_c4_margins_witness :
    ∃ my MY mx MX,
      my ∈ [hdrElement].map (fun e => by0 e.bbox) ∧
      (∀ y ∈ [hdrElement].map (fun e => by0 e.bbox), my ≤ y) ∧
      MY ∈ [hdrElement].map (fun e => by1 e.bbox) ∧
      (∀ y ∈ [hdrElement].map (fun e => by1 e.bbox), y ≤ MY) ∧
      mx ∈ [hdrElement].map (fun e => bx0 e.bbox) ∧
      (∀ x ∈ [hdrElement].map (fun e => bx0 e.bbox), mx ≤ x) ∧
      MX ∈ [hdrElement].map (fun e => bx1 e.bbox) ∧
      (∀ x ∈ [hdrElement].map (fun e => bx1 e.bbox), x ≤ MX) ∧
      calculate_margins [hdrElement] 612 792 =
        ⟨max 0 my, max 0 (792 - MY), max 0 mx, max 0 (612 - MX)⟩ :=
  (claim_c4_margins [hdrElement] 612 792).2.1 (by simp)

/-- Witness blocks for C6: Arial carries 5 characters, Times 2. -/
def c6BlockA : TextBlock := ⟨"Hello", (0, 0, 1, 1), "Arial", 12, 0, 0, 0⟩

/-- Second witness block for C6. -/
def c6BlockB : TextBlock := ⟨"Hi", (0, 0, 1, 1), "Times", 12, 0, 0, 0⟩

/-- Witness for C6 on the spec's two-block example. -/
theorem claim_c6_global_styles_witness :
    ∃ gs, extract_global_styles [c6BlockA, c6BlockB] = some gs ∧
      some gs.default_font =
        specDefault (fun tbl => tbl.font_name) [c6BlockA, c6BlockB] ∧
      some gs.default_font_size =
        specDefault (fun tbl => tbl.font_size) [c6BlockA, c6BlockB] :=
  (claim_c6_global_styles [c6BlockA, c6BlockB]).2 (by simp)

/-- Witness for C7 on the concrete overlapping pair: both areas and
their minimum are strictly positive. -/
theorem claim_c7_overlap_guard_witness :
    0 < (bx1 scenTextElement.bbox - bx0 scenTextElement.bbox) *
        (by1 scenTextElement.bbox - by0 scenTextElement.bbox) ∧
    0 < (bx1 scenImageElement.bbox - bx0 scenImageElement.bbox) *
        (by1 scenImageElement.bbox - by0 scenImageElement.bbox) ∧
    0 < min ((bx1 scenTextElement.bbox - bx0 scenTextElement.bbox) *
          (by1 scenTextElement.bbox - by0 scenTextElement.bbox))
        ((bx1 scenImageElement.bbox - bx0 scenImageElement.bbox) *
          (by1 scenImageElement.bbox - by0 scenImageElement.bbox)) :=
  (claim_c7_overlap_guard scenTextElement scenImageElement (7 / 10)).2
    (by norm_num [bx0, bx1, by0, by1, scenTextElement, scenImageElement,
      scenTextBlock, scenImageBlock, min_def, max_def])
    (by norm_num [bx0, bx1, by0, by1, scenTextElement, scenImageElement,
      scenTextBlock, scenImageBlock, min_def, max_def])

/-- Witness for C8 on a one-block page. -/
theorem claim_c8_single_column_witness :
    ∃ mx MX,
      mx ∈ [hdrTextBlock].map (fun t => bx0 t.bbox) ∧
      (∀ x ∈ [hdrTextBlock].map (fun t => bx0 t.bbox), mx ≤ x) ∧
      MX ∈ [hdrTextBlock].map (fun t => bx1 t.bbox) ∧
      (∀ x ∈ [hdrTextBlock].map (fun t => bx1 t.bbox), x ≤ MX) ∧
      detect_columns [hdrTextBlock] 612 = [⟨mx, MX, MX - mx⟩] :=
  (claim_c8_single_column [hdrTextBlock] 612).2.2 (by simp)

/-- Witness input for C9: a text block whose page index 5 lies outside
the one-page document. -/
def badTextBlock : TextBlock := ⟨"Ghost", (0, 0, 10, 10), "Arial", 12, 0, 0, 5⟩

/-- Witness for C9: on the concrete document the page-0 header element
does not wrap the out-of-range block. -/
theorem claim_c9_out_of_range_filtered_witness :
    hdrElement.content ≠ Content.tb badTextBlock :=
  claim_c9_out_of_range_filtered [hdrTextBlock, badTextBlock] [] [] scenDoc
    (Content.tb badTextBlock) (by simp [contentInInputs])
    (Or.inr (by norm_num [contentPageNum, badTextBlock, scenDoc]))
    (reconstruct_page_layout 0 [hdrTextBlock, badTextBlock] [] [] scenDoc)
    (by
      rw [rl_pages]
      simp only [List.mem_map, List.mem_range]
      exact ⟨0, by norm_num [scenDoc], rfl⟩)
    hdrElement
    (by
      apply List.mem_append_left
      apply List.mem_append_left
      rw [rpl_headers, mem_shf_headers]
      refine ⟨?_, hdr_center_in_zone⟩
      have hs : List.insertionSort readingLe
          (wrapPage 0 [hdrTextBlock, badTextBlock] [] []) = [hdrElement] := rfl
      rw [hs]
      simp)

/-- Witness for C10: the spanning block stays in the page's block list. -/
theorem claim_c10_raw_detector_witness :
    spanTextBlock ∈ (get_page_layout [spanTextBlock] [] scenDoc 0).text_blocks :=
  (claim_c10_raw_detector [] 0).2.2.1 [spanTextBlock] [] scenDoc 0 spanTextBlock
    (Or.inl (claim_c10_raw_detector [] 0).2.2.2.1)

end PdfToDocx
